import Mathlib

set_option maxRecDepth 100000

/-!
Shallow embedding of the ledger/consensus core of `src/components/BlockchainApp.tsx`
(classes `SimpleHash`, `Transaction`, `Block`, `Validator`, `CosmosBlockchain`).

Modelling conventions:
* JavaScript `Map` objects are embedded as insertion-ordered association lists
  (`SMap`), since `Map` iteration order is insertion order and
  `Array.from(map.values())` enumerates values in that order.
* JavaScript numbers are embedded as `Int` for amounts, fees, balances, stakes
  and timestamps; the `Math.random()` draw in `selectValidator` is embedded as
  a rational parameter `random` standing for the draw computed from
  `Math.random()`.
* `Date.now()` is nondeterministic, so each operation that reads the clock
  takes the corresponding timestamp as an explicit argument.
* Methods that `throw` are embedded as `Except String` with the exact message
  strings thrown by the source; an `.error` result carries no successor state,
  which mirrors the fact that the source throws before performing any
  mutation in those methods.
-/

/-- Association list keyed by strings, standing for a JavaScript `Map`. -/
abbrev SMap (α : Type) := List (String × α)

/-- Embedding of `Map.prototype.get`: first entry with the given key. -/
def alGet (m : SMap α) (k : String) : Option α :=
  match m with
  | [] => none
  | p :: rest => if p.1 = k then some p.2 else alGet rest k

/-- Embedding of `Map.prototype.has`. -/
def alHas (m : SMap α) (k : String) : Bool :=
  match m with
  | [] => false
  | p :: rest => p.1 = k || alHas rest k

/-- Replace the value stored under an existing key, keeping entry order. -/
def alReplace (m : SMap α) (k : String) (v : α) : SMap α :=
  match m with
  | [] => []
  | p :: rest => (if p.1 = k then (k, v) else p) :: alReplace rest k v

/-- Embedding of `Map.prototype.set`: update in place if the key exists
(JS `Map.set` keeps the original insertion position), else append. -/
def alSet (m : SMap α) (k : String) (v : α) : SMap α :=
  if alHas m k then alReplace m k v else m ++ [(k, v)]

/-- Balance lookup with default `0`, the `this.balances.get(address) || 0`
pattern of `CosmosBlockchain.getBalance`. -/
def balOf (m : SMap Int) (a : String) : Int :=
  (alGet m a).getD 0

/-- JavaScript `ToInt32` conversion, applied by `<<` and `& ` in `SimpleHash`. -/
def toInt32 (n : Int) : Int :=
  (n + 2147483648) % 4294967296 - 2147483648

/-- Embedding of `SimpleHash.create` on a string: the loop
`hash = ((hash << 5) - hash) + charCode; hash = hash & hash` followed by
`Math.abs(hash).toString(16)`. -/
def SimpleHash.create (s : String) : String :=
  let h := s.data.foldl (fun hash c => toInt32 (toInt32 (hash * 32) - hash + (c.toNat : Int))) 0
  (Nat.toDigits 16 h.natAbs).asString

/-- Template-literal rendering of a `string | null` value (`null` prints as
the text "null"). -/
def jsOptString (s : Option String) : String :=
  match s with
  | none => "null"
  | some a => a

/-- Embedding of the `Transaction` class (interface `ITransaction`). -/
structure Transaction where
  fromAddress : Option String
  toAddress : String
  amount : Int
  fee : Int
  timestamp : Int
  hash : String
  signature : Option String
  deriving DecidableEq

/-- Embedding of `Transaction.calculateHash`: `SimpleHash.create` over the
template literal concatenating the five constructor fields. -/
def Transaction.hashOfFields (fromAddress : Option String) (toAddress : String)
    (amount fee timestamp : Int) : String :=
  SimpleHash.create
    (jsOptString fromAddress ++ toAddress ++ toString amount ++ toString fee ++
      toString timestamp)

/-- Embedding of the `Transaction` constructor: stores the fields, computes
the hash once, and leaves `signature` as `null`.  The `timestamp` argument
stands for `Date.now()` at construction time. -/
def Transaction.make (fromAddress : Option String) (toAddress : String)
    (amount : Int) (fee : Int) (timestamp : Int) : Transaction :=
  { fromAddress := fromAddress
    toAddress := toAddress
    amount := amount
    fee := fee
    timestamp := timestamp
    hash := Transaction.hashOfFields fromAddress toAddress amount fee timestamp
    signature := none }

/-- Embedding of `Transaction.signTransaction`: no-op when `fromAddress` is
null, otherwise sets the signature to `SimpleHash.create(hash + privateKey)`. -/
def Transaction.signTransaction (tx : Transaction) (privateKey : String) : Transaction :=
  match tx.fromAddress with
  | none => tx
  | some _ => { tx with signature := some (SimpleHash.create (tx.hash ++ privateKey)) }

/-- Embedding of `Transaction.isValid`: reward transactions (null origin) are
always valid, others are valid iff a signature is set. -/
def Transaction.isValid (tx : Transaction) : Bool :=
  match tx.fromAddress with
  | none => true
  | some _ => tx.signature.isSome

/-- Hex rendering of a single digit value, used for JSON control-character
escapes. -/
def hexDigitStr (n : Nat) : String :=
  (Nat.toDigits 16 n).asString

/-- JSON escaping of one character, as performed by `JSON.stringify` on
string values. -/
def jsonEscapeChar (c : Char) : String :=
  if c = '"' then "\\\""
  else if c = '\\' then "\\\\"
  else if c = '\n' then "\\n"
  else if c = '\r' then "\\r"
  else if c = '\t' then "\\t"
  else if c.toNat = 8 then "\\b"
  else if c.toNat = 12 then "\\f"
  else if c.toNat < 32 then "\\u00" ++ hexDigitStr (c.toNat / 16) ++ hexDigitStr (c.toNat % 16)
  else String.singleton c

/-- JSON rendering of a string value. -/
def jsonString (s : String) : String :=
  "\"" ++ String.join (s.data.map jsonEscapeChar) ++ "\""

/-- JSON rendering of a `string | null` value. -/
def jsonOptString (s : Option String) : String :=
  match s with
  | none => "null"
  | some a => jsonString a

/-- `JSON.stringify` of one `Transaction` object; key order is the property
assignment order of the `Transaction` constructor. -/
def Transaction.toJson (tx : Transaction) : String :=
  "\x7b\"fromAddress\":" ++ jsonOptString tx.fromAddress ++
    ",\"toAddress\":" ++ jsonString tx.toAddress ++
    ",\"amount\":" ++ toString tx.amount ++
    ",\"fee\":" ++ toString tx.fee ++
    ",\"timestamp\":" ++ toString tx.timestamp ++
    ",\"hash\":" ++ jsonString tx.hash ++
    ",\"signature\":" ++ jsonOptString tx.signature ++ "\x7d"

/-- `JSON.stringify` of a transaction array. -/
def transactionsJson (txs : List Transaction) : String :=
  "[" ++ String.intercalate "," (txs.map Transaction.toJson) ++ "]"

/-- Embedding of the `Block` class (interface `IBlock`). -/
structure Block where
  index : Nat
  timestamp : Int
  transactions : List Transaction
  previousHash : String
  validator : String
  hash : String
  deriving DecidableEq

/-- Embedding of `Block.calculateHash`: `SimpleHash.create` over the template
literal of index, previous hash, timestamp, JSON of the transactions, and the
validator address. -/
def Block.hashOfFields (index : Nat) (transactions : List Transaction)
    (previousHash : String) (validator : String) (timestamp : Int) : String :=
  SimpleHash.create
    (toString index ++ previousHash ++ toString timestamp ++
      transactionsJson transactions ++ validator)

/-- Embedding of the `Block` constructor; the `timestamp` argument stands for
the `Date.now()` default. -/
def Block.make (index : Nat) (transactions : List Transaction)
    (previousHash : String) (validator : String) (timestamp : Int) : Block :=
  { index := index
    timestamp := timestamp
    transactions := transactions
    previousHash := previousHash
    validator := validator
    hash := Block.hashOfFields index transactions previousHash validator timestamp }

/-- Placeholder block used only as the default of list lookups that the
source never performs on an empty chain. -/
def defaultBlock : Block :=
  { index := 0, timestamp := 0, transactions := [], previousHash := "", validator := "", hash := "" }

/-- Placeholder transaction used only as the default of list lookups. -/
def defaultTransaction : Transaction :=
  Transaction.make none "" 0 0 0

/-- Embedding of the `Validator` class (interface `IValidator`). -/
structure Validator where
  address : String
  stake : Int
  isActive : Bool
  missedBlocks : Nat
  totalBlocks : Nat
  deriving DecidableEq

/-- Embedding of the `Validator` constructor. -/
def Validator.make (address : String) (stake : Int) : Validator :=
  { address := address, stake := stake, isActive := true, missedBlocks := 0, totalBlocks := 0 }

/-- Embedding of `Validator.increaseStake`. -/
def Validator.increaseStake (v : Validator) (amount : Int) : Validator :=
  { v with stake := v.stake + amount }

/-- Embedding of `Validator.decreaseStake` (guarded subtraction). -/
def Validator.decreaseStake (v : Validator) (amount : Int) : Validator :=
  if v.stake ≥ amount then { v with stake := v.stake - amount } else v

/-- Embedding of the `CosmosBlockchain` class state. -/
structure CosmosBlockchain where
  chain : List Block
  pendingTransactions : List Transaction
  miningReward : Int
  validators : SMap Validator
  balances : SMap Int
  stakingPool : SMap (SMap Int)
  totalSupply : Int
  deriving DecidableEq

/-- Embedding of `CosmosBlockchain.createGenesisBlock`. -/
def createGenesisBlock (timestamp : Int) : Block :=
  Block.make 0 [] "0" "genesis" timestamp

/-- Embedding of `CosmosBlockchain.initializeGenesisValidators`: seeds the
three genesis validators, their ledger balances, and the total supply, by
iterating the literal array in order. -/
def genesisValidatorsSetup (bc0 : CosmosBlockchain) : CosmosBlockchain :=
  let add := fun (bc : CosmosBlockchain) (address : String) (stake : Int) =>
    { bc with
        validators := alSet bc.validators address (Validator.make address stake)
        balances := alSet bc.balances address stake
        totalSupply := bc.totalSupply + stake }
  add (add (add bc0 "validator1" 1000000) "validator2" 800000) "validator3" 600000

/-- Embedding of the `CosmosBlockchain` constructor; `timestamp` stands for
the `Date.now()` read while building the genesis block. -/
def CosmosBlockchain.init (timestamp : Int) : CosmosBlockchain :=
  genesisValidatorsSetup
    { chain := [createGenesisBlock timestamp]
      pendingTransactions := []
      miningReward := 100
      validators := []
      balances := []
      stakingPool := []
      totalSupply := 0 }

/-- Embedding of `CosmosBlockchain.getLatestBlock`
(`this.chain[this.chain.length - 1]`); the default is never used because the
chain is seeded with the genesis block. -/
def CosmosBlockchain.getLatestBlock (bc : CosmosBlockchain) : Block :=
  bc.chain.getLastD defaultBlock

/-- Embedding of `CosmosBlockchain.getBalance`. -/
def CosmosBlockchain.getBalance (bc : CosmosBlockchain) (address : String) : Int :=
  balOf bc.balances address

/-- Embedding of `CosmosBlockchain.createTransaction`: throws `无效的交易` on
an unauthorized transaction, otherwise appends it to the pending pool.  No
balance is inspected. -/
def CosmosBlockchain.createTransaction (bc : CosmosBlockchain) (tx : Transaction) :
    Except String CosmosBlockchain :=
  if !tx.isValid then
    .error "无效的交易"
  else
    .ok { bc with pendingTransactions := bc.pendingTransactions ++ [tx] }

/-- The `activeValidators` filter computed at the start of
`CosmosBlockchain.selectValidator`: active validators with positive stake, in
validator-map insertion order. -/
def CosmosBlockchain.activeValidatorsOf (bc : CosmosBlockchain) : List Validator :=
  (bc.validators.map Prod.snd).filter (fun v => v.isActive && decide (v.stake > 0))

/-- The accumulation loop of `selectValidator`: walk validators adding stakes
and return the first validator whose cumulative stake reaches the draw. -/
def selectLoop (random : ℚ) (vs : List Validator) (currentSum : Int) : Option Validator :=
  match vs with
  | [] => none
  | v :: rest =>
    if random ≤ ((currentSum + v.stake : Int) : ℚ) then some v
    else selectLoop random rest (currentSum + v.stake)

/-- Total stake of the active validators, the `totalStake` accumulator of
`selectValidator`. -/
def CosmosBlockchain.totalActiveStake (bc : CosmosBlockchain) : Int :=
  bc.activeValidatorsOf.foldl (fun sum v => sum + v.stake) 0

/-- Embedding of `CosmosBlockchain.selectValidator`.  The `random` argument
stands for the draw `Math.random() * totalStake`, a value ranging over
`[0, totalActiveStake)`; the multiplication itself is pure arithmetic on the
nondeterministic `Math.random()` input, so the embedding quantifies directly
over its result.  Throws `没有活跃的验证者` when no validator is active with
positive stake; if the accumulation loop never reaches the draw, falls back
to the first active validator. -/
def CosmosBlockchain.selectValidator (bc : CosmosBlockchain) (random : ℚ) :
    Except String Validator :=
  if h : bc.activeValidatorsOf = [] then
    .error "没有活跃的验证者"
  else
    match selectLoop random bc.activeValidatorsOf 0 with
    | some v => .ok v
    | none => .ok (bc.activeValidatorsOf.head h)

/-- Embedding of `CosmosBlockchain.isTransactionValid`.  The source tests
`!transaction.fromAddress`, which is true both for `null` and for the empty
string (JS falsiness); only a truthy origin is checked for affordability. -/
def CosmosBlockchain.isTransactionValid (bc : CosmosBlockchain) (tx : Transaction) : Bool :=
  match tx.fromAddress with
  | none => true
  | some fromAddr =>
    if fromAddr = "" then true
    else decide (bc.getBalance fromAddr ≥ tx.amount + tx.fee)

/-- One iteration of the settlement loop of
`CosmosBlockchain.minePendingTransactions`, applied to the evolving pair of
(balances, totalSupply): a non-null origin is debited `amount + fee`, the
destination credited `amount` and the producing validator credited `fee`; a
null origin only credits the destination and mints `amount` into the total
supply. -/
def settleTransaction (validatorAddress : String) (st : SMap Int × Int)
    (tx : Transaction) : SMap Int × Int :=
  match tx.fromAddress with
  | some fromAddr =>
    let b1 := alSet st.1 fromAddr (balOf st.1 fromAddr - tx.amount - tx.fee)
    let b2 := alSet b1 tx.toAddress (balOf b1 tx.toAddress + tx.amount)
    let b3 := alSet b2 validatorAddress (balOf b2 validatorAddress + tx.fee)
    (b3, st.2)
  | none =>
    (alSet st.1 tx.toAddress (balOf st.1 tx.toAddress + tx.amount), st.2 + tx.amount)

/-- The `validTransactions` list of `minePendingTransactions`: the pending
pool with the synthesized reward transaction appended, filtered by
`isTransactionValid` against the pre-settlement balances. -/
def mineValidTxs (bc : CosmosBlockchain) (validator : Validator) (tsReward : Int) :
    List Transaction :=
  (bc.pendingTransactions ++ [Transaction.make none validator.address bc.miningReward 0 tsReward]).filter
    (fun tx => bc.isTransactionValid tx)

/-- The settlement loop of `minePendingTransactions`: fold the per-transaction
settlement over the valid transactions, starting from the current balances and
total supply. -/
def mineSettled (bc : CosmosBlockchain) (validator : Validator) (tsReward : Int) :
    SMap Int × Int :=
  (mineValidTxs bc validator tsReward).foldl (settleTransaction validator.address)
    (bc.balances, bc.totalSupply)

/-- Body of `CosmosBlockchain.minePendingTransactions` after the validator
has been selected: synthesize the reward transaction, filter the pending pool
against the current balances, build the block, settle the filtered
transactions in order, append the block, bump the producer's block counter,
and clear the pending pool. -/
def CosmosBlockchain.mineWith (bc : CosmosBlockchain) (validator : Validator)
    (tsReward tsBlock : Int) : Block × CosmosBlockchain :=
  let validTransactions := mineValidTxs bc validator tsReward
  let block := Block.make bc.chain.length validTransactions bc.getLatestBlock.hash
    validator.address tsBlock
  let settled := mineSettled bc validator tsReward
  (block,
    { bc with
        chain := bc.chain ++ [block]
        pendingTransactions := []
        balances := settled.1
        totalSupply := settled.2
        validators := alSet bc.validators validator.address
          { validator with totalBlocks := validator.totalBlocks + 1 } })

/-- Embedding of `CosmosBlockchain.minePendingTransactions`.  `random` stands
for the stake draw of `selectValidator`, `tsReward` and `tsBlock` for the two
`Date.now()` reads.  Fails through with `没有活跃的验证者` when validator
selection fails, in which case no state is changed (the source throws before
any mutation). -/
def CosmosBlockchain.minePendingTransactions (bc : CosmosBlockchain) (random : ℚ)
    (tsReward tsBlock : Int) : Except String (Block × CosmosBlockchain) :=
  match bc.selectValidator random with
  | .error e => .error e
  | .ok validator => .ok (bc.mineWith validator tsReward tsBlock)

/-- Embedding of `CosmosBlockchain.delegate`: throws `验证者不存在` for an
unknown validator, `余额不足` when the delegator cannot afford the amount;
otherwise debits the delegator, bumps the delegator's staking-pool entry for
the validator (creating the inner map if absent), and increases the
validator's stake.  Errors are thrown before any mutation. -/
def CosmosBlockchain.delegate (bc : CosmosBlockchain) (delegatorAddress validatorAddress : String)
    (amount : Int) : Except String CosmosBlockchain :=
  match alGet bc.validators validatorAddress with
  | none => .error "验证者不存在"
  | some validator =>
    if bc.getBalance delegatorAddress < amount then
      .error "余额不足"
    else
      let balances := alSet bc.balances delegatorAddress (bc.getBalance delegatorAddress - amount)
      let pool0 := if alHas bc.stakingPool delegatorAddress then bc.stakingPool
                   else alSet bc.stakingPool delegatorAddress []
      let delegatorStaking := (alGet pool0 delegatorAddress).getD []
      let currentStake := (alGet delegatorStaking validatorAddress).getD 0
      let pool1 := alSet pool0 delegatorAddress
        (alSet delegatorStaking validatorAddress (currentStake + amount))
      let validators := alSet bc.validators validatorAddress (validator.increaseStake amount)
      .ok { bc with balances := balances, stakingPool := pool1, validators := validators }

/-- Embedding of `CosmosBlockchain.getStakingInfo`. -/
def CosmosBlockchain.getStakingInfo (bc : CosmosBlockchain) (address : String) : SMap Int :=
  (alGet bc.stakingPool address).getD []

/-- Amount delegated by `delegator` to `validatorAddress` as readable through
`getStakingInfo` (missing entries read as `0`). -/
def CosmosBlockchain.stakingAmount (bc : CosmosBlockchain) (delegator validatorAddress : String) : Int :=
  (alGet (bc.getStakingInfo delegator) validatorAddress).getD 0

/-- One observable state transition of the core: a successful
`createTransaction`, `minePendingTransactions`, or `delegate` call. -/
inductive Step : CosmosBlockchain → CosmosBlockchain → Prop
  | submit {bc bc' : CosmosBlockchain} (tx : Transaction)
      (h : bc.createTransaction tx = .ok bc') : Step bc bc'
  | mine {bc bc' : CosmosBlockchain} (random : ℚ) (tsReward tsBlock : Int) (blk : Block)
      (h : bc.minePendingTransactions random tsReward tsBlock = .ok (blk, bc')) : Step bc bc'
  | stake {bc bc' : CosmosBlockchain} (d v : String) (amount : Int)
      (h : bc.delegate d v amount = .ok bc') : Step bc bc'

/-- States reachable from a freshly constructed chain by core operations. -/
inductive Reachable : CosmosBlockchain → Prop
  | genesis (ts : Int) : Reachable (CosmosBlockchain.init ts)
  | step {bc bc' : CosmosBlockchain} : Reachable bc → Step bc bc' → Reachable bc'

/-- Chain-shape invariant: every non-genesis block links to the hash of its
predecessor, every block's stored index is its position, and the block at
position 0 is the genesis block (previous hash "0", no transactions,
producer "genesis"). -/
def chainLinked (bc : CosmosBlockchain) : Prop :=
  (∀ i, i < bc.chain.length → 0 < i →
      (bc.chain.getD i defaultBlock).previousHash = (bc.chain.getD (i - 1) defaultBlock).hash) ∧
  (∀ i, i < bc.chain.length → (bc.chain.getD i defaultBlock).index = i) ∧
  (bc.chain.getD 0 defaultBlock).previousHash = "0" ∧
  (bc.chain.getD 0 defaultBlock).transactions = [] ∧
  (bc.chain.getD 0 defaultBlock).validator = "genesis" ∧
  bc.chain ≠ []

/-- Signed self-transfer used to exercise settlement of a transaction whose
origin, destination, and producer coincide. -/
def run1Tx : Transaction :=
  (Transaction.make (some "validator1") "validator1" 50 1 5).signTransaction "key"

/-- State after submitting `run1Tx` to a fresh chain. -/
def run1Bc1 : CosmosBlockchain :=
  match (CosmosBlockchain.init 0).createTransaction run1Tx with
  | .ok s => s
  | .error _ => CosmosBlockchain.init 0

/-- Result of mining `run1Bc1` with draw 0 (selecting validator1). -/
def run1Mine : Except String (Block × CosmosBlockchain) :=
  run1Bc1.minePendingTransactions 0 6 7

/-- Block produced in the `run1` scenario. -/
def run1Blk : Block :=
  match run1Mine with
  | .ok p => p.1
  | .error _ => defaultBlock

/-- First signed double-spend transaction of the `run2` scenario. -/
def run2Tx1 : Transaction :=
  (Transaction.make (some "validator1") "bob" 600000 0 1).signTransaction "k"

/-- Second signed double-spend transaction of the `run2` scenario. -/
def run2Tx2 : Transaction :=
  (Transaction.make (some "validator1") "bob" 600000 0 2).signTransaction "k"

/-- State after submitting `run2Tx1` to a fresh chain. -/
def run2Bc1 : CosmosBlockchain :=
  match (CosmosBlockchain.init 0).createTransaction run2Tx1 with
  | .ok s => s
  | .error _ => CosmosBlockchain.init 0

/-- State after additionally submitting `run2Tx2`. -/
def run2Bc2 : CosmosBlockchain :=
  match run2Bc1.createTransaction run2Tx2 with
  | .ok s => s
  | .error _ => run2Bc1

/-- Result of mining the double-spend pool with draw 0. -/
def run2Mine : Except String (Block × CosmosBlockchain) :=
  run2Bc2.minePendingTransactions 0 3 4

/-- Block produced in the `run2` scenario. -/
def run2Blk : Block :=
  match run2Mine with
  | .ok p => p.1
  | .error _ => defaultBlock

/-- State after the `run2` block settles. -/
def run2Bc3 : CosmosBlockchain :=
  match run2Mine with
  | .ok p => p.2
  | .error _ => run2Bc2

/-- State after the `run1` block settles. -/
def run1Bc2 : CosmosBlockchain :=
  match run1Mine with
  | .ok p => p.2
  | .error _ => run1Bc1

/-- Fresh chain with its validator map emptied, so that no validator is
active. -/
def noValidatorChain : CosmosBlockchain :=
  { CosmosBlockchain.init 0 with validators := [] }

/-- Fresh chain whose validator map holds exactly one active validator of
stake 7. -/
def singleValidatorChain : CosmosBlockchain :=
  { CosmosBlockchain.init 0 with
      validators := [("validator1", Validator.make "validator1" 7)] }

/-- State after `delegate("validator2", "validator1", 100)` on a fresh chain. -/
def delegateRunBc : CosmosBlockchain :=
  match (CosmosBlockchain.init 0).delegate "validator2" "validator1" 100 with
  | .ok s => s
  | .error _ => CosmosBlockchain.init 0

/-- State after `delegate("validator1", "validator2", 100)` on a fresh chain. -/
def delegateWitBc : CosmosBlockchain :=
  match (CosmosBlockchain.init 0).delegate "validator1" "validator2" 100 with
  | .ok s => s
  | .error _ => CosmosBlockchain.init 0

/-- State after `delegate("validator2", "validator1", -50)` on a fresh chain. -/
def delegateNegRunBc : CosmosBlockchain :=
  match (CosmosBlockchain.init 0).delegate "validator2" "validator1" (-50) with
  | .ok s => s
  | .error _ => CosmosBlockchain.init 0

/-- Result of mining the single-transaction pool of `run2Bc1` with draw 0. -/
def run4Mine : Except String (Block × CosmosBlockchain) :=
  run2Bc1.minePendingTransactions 0 3 4

/-- Block produced in the `run4` scenario. -/
def run4Blk : Block :=
  match run4Mine with
  | .ok p => p.1
  | .error _ => defaultBlock

/-- State after the `run4` block settles. -/
def run4Bc : CosmosBlockchain :=
  match run4Mine with
  | .ok p => p.2
  | .error _ => run2Bc1

/-- Result of mining a fresh chain (empty pending pool) with draw 0. -/
def run3Mine : Except String (Block × CosmosBlockchain) :=
  (CosmosBlockchain.init 0).minePendingTransactions 0 0 0

/-- Block produced in the `run3` scenario. -/
def run3Blk : Block :=
  match run3Mine with
  | .ok p => p.1
  | .error _ => defaultBlock

/-- State after the `run3` block settles. -/
def run3Bc : CosmosBlockchain :=
  match run3Mine with
  | .ok p => p.2
  | .error _ => CosmosBlockchain.init 0

theorem alGet_cons {α : Type} (p : String × α) (rest : SMap α) (k : String) :
    alGet (p :: rest) k = if p.1 = k then some p.2 else alGet rest k := rfl

theorem alGet_alReplace_ne {α : Type} (m : SMap α) {k k' : String} (v : α) (h : k' ≠ k) :
    alGet (alReplace m k v) k' = alGet m k' := by
  induction m with
  | nil => rfl
  | cons p rest ih =>
    by_cases hp : p.1 = k
    · simp [alReplace, alGet_cons, hp, ih, Ne.symm h, h]
    · simp [alReplace, alGet_cons, hp, ih]

theorem alGet_alReplace_self {α : Type} (m : SMap α) {k : String} (v : α)
    (h : alHas m k = true) : alGet (alReplace m k v) k = some v := by
  induction m with
  | nil => simp [alHas] at h
  | cons p rest ih =>
    by_cases hp : p.1 = k
    · simp [alReplace, alGet_cons, hp]
    · simp [alHas, hp] at h
      simp [alReplace, alGet_cons, hp, ih h]

theorem alGet_append {α : Type} (m tail : SMap α) (k : String) :
    alGet (m ++ tail) k = match alGet m k with
      | some v => some v
      | none => alGet tail k := by
  induction m with
  | nil => simp [alGet]
  | cons p rest ih =>
    by_cases hp : p.1 = k
    · simp [alGet_cons, hp, List.cons_append]
    · simp [alGet_cons, hp, List.cons_append, ih]

theorem alGet_eq_none {α : Type} (m : SMap α) (k : String) (h : alHas m k = false) :
    alGet m k = none := by
  induction m with
  | nil => rfl
  | cons p rest ih =>
    simp [alHas] at h
    simp [alGet_cons, h.1, ih h.2]

theorem alGet_alSet {α : Type} (m : SMap α) (k k' : String) (v : α) :
    alGet (alSet m k v) k' = if k' = k then some v else alGet m k' := by
  unfold alSet
  by_cases hh : alHas m k
  · rw [if_pos hh]
    by_cases hk : k' = k
    · subst hk; rw [if_pos rfl, alGet_alReplace_self m v hh]
    · rw [if_neg hk, alGet_alReplace_ne m v hk]
  · rw [if_neg hh, alGet_append]
    by_cases hk : k' = k
    · subst hk
      rw [alGet_eq_none m k' (by simpa using hh)]
      simp [alGet_cons]
    · rw [if_neg hk]
      cases hg : alGet m k' with
      | none => simp [alGet_cons, Ne.symm hk, alGet]
      | some w => simp

theorem balOf_alSet (m : SMap Int) (k a : String) (v : Int) :
    balOf (alSet m k v) a = if a = k then v else balOf m a := by
  unfold balOf
  rw [alGet_alSet]
  by_cases hk : a = k <;> simp [hk]

theorem balOf_nonneg_of_entries {m : SMap Int} (h : ∀ p ∈ m, 0 ≤ p.2) (a : String) :
    0 ≤ balOf m a := by
  induction m with
  | nil => simp [balOf, alGet]
  | cons p rest ih =>
    unfold balOf
    rw [alGet_cons]
    by_cases hp : p.1 = a
    · simpa [hp] using h p (List.mem_cons_self p rest)
    · simp only [hp, if_false]
      exact ih fun q hq => h q (List.mem_cons_of_mem p hq)

theorem getD_append_left {α : Type} (l l' : List α) (d : α) (i : Nat) (h : i < l.length) :
    (l ++ l').getD i d = l.getD i d := by
  induction l generalizing i with
  | nil => simp at h
  | cons a rest ih =>
    cases i with
    | zero => rfl
    | succ j => simpa using ih j (by simpa using h)

theorem getD_append_length {α : Type} (l : List α) (b d : α) :
    (l ++ [b]).getD l.length d = b := by
  induction l with
  | nil => rfl
  | cons a rest ih => simp [ih]

theorem getD_indep {α : Type} (l : List α) (i : Nat) (d d' : α) (h : i < l.length) :
    l.getD i d = l.getD i d' := by
  induction l generalizing i with
  | nil => simp at h
  | cons a rest ih =>
    cases i with
    | zero => simp
    | succ j =>
      simp only [List.getD_cons_succ]
      exact ih j (by simpa using h)

theorem getLastD_eq_getD {α : Type} (l : List α) (d : α) (h : l ≠ []) :
    l.getLastD d = l.getD (l.length - 1) d := by
  induction l generalizing d with
  | nil => exact absurd rfl h
  | cons a rest ih =>
    cases rest with
    | nil => rfl
    | cons b t =>
      rw [List.getLastD_cons, ih a (by simp)]
      have hlen : (a :: b :: t : List α).length - 1 = ((b :: t : List α).length - 1) + 1 := by
        simp
      rw [hlen, List.getD_cons_succ]
      exact getD_indep _ _ _ _ (by simp)

theorem isValid_iff (tx : Transaction) :
    tx.isValid = true ↔ (tx.fromAddress = none ∨ tx.signature.isSome = true) := by
  unfold Transaction.isValid
  cases tx.fromAddress <;> simp

theorem createTransaction_ok_inv {bc bc' : CosmosBlockchain} {tx : Transaction}
    (h : bc.createTransaction tx = .ok bc') :
    bc' = { bc with pendingTransactions := bc.pendingTransactions ++ [tx] } := by
  unfold CosmosBlockchain.createTransaction at h
  split at h
  · cases h
  · exact (Except.ok.inj h).symm

theorem createTransaction_ok_of_valid {bc : CosmosBlockchain} {tx : Transaction}
    (h : tx.isValid = true) :
    bc.createTransaction tx = .ok { bc with pendingTransactions := bc.pendingTransactions ++ [tx] } := by
  unfold CosmosBlockchain.createTransaction
  simp [h]

theorem createTransaction_error_of_invalid {bc : CosmosBlockchain} {tx : Transaction}
    (h : tx.isValid = false) :
    bc.createTransaction tx = .error "无效的交易" := by
  unfold CosmosBlockchain.createTransaction
  simp [h]

theorem selectLoop_mem {random : ℚ} : ∀ {vs : List Validator} {c : Int} {v : Validator},
    selectLoop random vs c = some v → v ∈ vs := by
  intro vs
  induction vs with
  | nil => intro c v h; cases h
  | cons w rest ih =>
    intro c v h
    unfold selectLoop at h
    split at h
    · cases h; exact List.mem_cons_self w rest
    · exact List.mem_cons_of_mem w (ih h)

theorem selectValidator_error_of_empty {bc : CosmosBlockchain} {random : ℚ}
    (h : bc.activeValidatorsOf = []) :
    bc.selectValidator random = .error "没有活跃的验证者" := by
  unfold CosmosBlockchain.selectValidator
  rw [dif_pos h]

theorem selectValidator_ok_of_ne_nil {bc : CosmosBlockchain} {random : ℚ}
    (h : bc.activeValidatorsOf ≠ []) :
    ∃ v, bc.selectValidator random = .ok v ∧ v ∈ bc.activeValidatorsOf := by
  unfold CosmosBlockchain.selectValidator
  rw [dif_neg h]
  cases hl : selectLoop random bc.activeValidatorsOf 0 with
  | some v => exact ⟨v, rfl, selectLoop_mem hl⟩
  | none => exact ⟨_, rfl, List.head_mem h⟩

theorem selectValidator_ok_mem {bc : CosmosBlockchain} {random : ℚ} {v : Validator}
    (h : bc.selectValidator random = .ok v) : v ∈ bc.activeValidatorsOf := by
  unfold CosmosBlockchain.selectValidator at h
  split at h
  · cases h
  · split at h
    next w heq =>
      rw [← Except.ok.inj h]
      exact selectLoop_mem heq
    next heq =>
      rw [← Except.ok.inj h]
      exact List.head_mem (by assumption)

theorem mine_ok_inv {bc : CosmosBlockchain} {random : ℚ} {tsR tsB : Int}
    {p : Block × CosmosBlockchain}
    (h : bc.minePendingTransactions random tsR tsB = .ok p) :
    ∃ v, bc.selectValidator random = .ok v ∧ p = bc.mineWith v tsR tsB := by
  unfold CosmosBlockchain.minePendingTransactions at h
  cases hs : bc.selectValidator random with
  | error e => rw [hs] at h; cases h
  | ok v => rw [hs] at h; exact ⟨v, rfl, (Except.ok.inj h).symm⟩

theorem mine_ok_of_select {bc : CosmosBlockchain} {random : ℚ} {tsR tsB : Int} {v : Validator}
    (hs : bc.selectValidator random = .ok v) :
    bc.minePendingTransactions random tsR tsB = .ok (bc.mineWith v tsR tsB) := by
  unfold CosmosBlockchain.minePendingTransactions
  rw [hs]

theorem mineWith_fst (bc : CosmosBlockchain) (v : Validator) (tsR tsB : Int) :
    (bc.mineWith v tsR tsB).1 =
      Block.make bc.chain.length (mineValidTxs bc v tsR) bc.getLatestBlock.hash v.address tsB := rfl

theorem mineWith_chain (bc : CosmosBlockchain) (v : Validator) (tsR tsB : Int) :
    (bc.mineWith v tsR tsB).2.chain = bc.chain ++ [(bc.mineWith v tsR tsB).1] := rfl

theorem mineWith_pending (bc : CosmosBlockchain) (v : Validator) (tsR tsB : Int) :
    (bc.mineWith v tsR tsB).2.pendingTransactions = [] := rfl

theorem mineWith_balances (bc : CosmosBlockchain) (v : Validator) (tsR tsB : Int) :
    (bc.mineWith v tsR tsB).2.balances = (mineSettled bc v tsR).1 := rfl

theorem mineWith_totalSupply (bc : CosmosBlockchain) (v : Validator) (tsR tsB : Int) :
    (bc.mineWith v tsR tsB).2.totalSupply = (mineSettled bc v tsR).2 := rfl

theorem isTransactionValid_of_none {bc : CosmosBlockchain} {tx : Transaction}
    (h : tx.fromAddress = none) : bc.isTransactionValid tx = true := by
  unfold CosmosBlockchain.isTransactionValid
  rw [h]

theorem isTransactionValid_affords {bc : CosmosBlockchain} {tx : Transaction} {o : String}
    (ho : tx.fromAddress = some o) (hne : o ≠ "")
    (h : bc.isTransactionValid tx = true) :
    tx.amount + tx.fee ≤ bc.getBalance o := by
  unfold CosmosBlockchain.isTransactionValid at h
  rw [ho] at h
  dsimp only at h
  rw [if_neg hne] at h
  simpa using h

theorem settleTransaction_some_spec (vAddr : String) (st : SMap Int × Int) {tx : Transaction}
    {o : String} (ho : tx.fromAddress = some o)
    (h1 : tx.toAddress ≠ o) (h2 : vAddr ≠ o) (h3 : vAddr ≠ tx.toAddress) :
    balOf (settleTransaction vAddr st tx).1 o = balOf st.1 o - tx.amount - tx.fee ∧
    balOf (settleTransaction vAddr st tx).1 tx.toAddress = balOf st.1 tx.toAddress + tx.amount ∧
    balOf (settleTransaction vAddr st tx).1 vAddr = balOf st.1 vAddr + tx.fee ∧
    (settleTransaction vAddr st tx).2 = st.2 := by
  unfold settleTransaction
  rw [ho]
  refine ⟨?_, ?_, ?_, rfl⟩
  · simp [balOf_alSet, Ne.symm h2, Ne.symm h1, h1, h2]
  · simp [balOf_alSet, Ne.symm h3, h1, h3]
  · simp [balOf_alSet, h2, h3]

theorem delegate_error_of_unknown {bc : CosmosBlockchain} {d vAddr : String} {n : Int}
    (h : alGet bc.validators vAddr = none) :
    bc.delegate d vAddr n = .error "验证者不存在" := by
  unfold CosmosBlockchain.delegate
  rw [h]

theorem delegate_error_of_poor {bc : CosmosBlockchain} {d vAddr : String} {n : Int}
    {v : Validator} (hv : alGet bc.validators vAddr = some v)
    (hb : bc.getBalance d < n) :
    bc.delegate d vAddr n = .error "余额不足" := by
  unfold CosmosBlockchain.delegate
  rw [hv]
  dsimp only
  rw [if_pos hb]

theorem delegate_ok_exists {bc : CosmosBlockchain} {d vAddr : String} {n : Int}
    {v : Validator} (hv : alGet bc.validators vAddr = some v)
    (hb : ¬ bc.getBalance d < n) :
    ∃ bc', bc.delegate d vAddr n = .ok bc' := by
  unfold CosmosBlockchain.delegate
  rw [hv]
  dsimp only
  rw [if_neg hb]
  exact ⟨_, rfl⟩

theorem delegate_effects {bc bc' : CosmosBlockchain} {d vAddr : String} {n : Int}
    (h : bc.delegate d vAddr n = .ok bc') :
    ∃ v, alGet bc.validators vAddr = some v ∧ ¬ bc.getBalance d < n ∧
      bc'.getBalance d = bc.getBalance d - n ∧
      (∀ a, a ≠ d → bc'.getBalance a = bc.getBalance a) ∧
      bc'.stakingAmount d vAddr = bc.stakingAmount d vAddr + n ∧
      alGet bc'.validators vAddr = some (v.increaseStake n) ∧
      bc'.chain = bc.chain ∧ bc'.pendingTransactions = bc.pendingTransactions ∧
      bc'.totalSupply = bc.totalSupply ∧ bc'.miningReward = bc.miningReward := by
  unfold CosmosBlockchain.delegate at h
  cases hv : alGet bc.validators vAddr with
  | none => rw [hv] at h; cases h
  | some v =>
    rw [hv] at h
    dsimp only at h
    by_cases hb : bc.getBalance d < n
    · rw [if_pos hb] at h; cases h
    · rw [if_neg hb] at h
      have hbceq := (Except.ok.inj h).symm
      subst hbceq
      refine ⟨v, rfl, hb, ?_, ?_, ?_, ?_, rfl, rfl, rfl, rfl⟩
      · show balOf (alSet bc.balances d (bc.getBalance d - n)) d = bc.getBalance d - n
        rw [balOf_alSet]
        simp
      · intro a ha
        show balOf (alSet bc.balances d (bc.getBalance d - n)) a = bc.getBalance a
        rw [balOf_alSet, if_neg ha]
        rfl
      · show (alGet ((alGet (alSet _ d _) d).getD []) vAddr).getD 0 =
          bc.stakingAmount d vAddr + n
        rw [alGet_alSet, if_pos rfl]
        show (alGet (alSet ((alGet (if alHas bc.stakingPool d then bc.stakingPool
            else alSet bc.stakingPool d []) d).getD []) vAddr _) vAddr).getD 0 =
          bc.stakingAmount d vAddr + n
        rw [alGet_alSet, if_pos rfl]
        by_cases hp : alHas bc.stakingPool d
        · simp only [if_pos hp]
          rfl
        · simp only [if_neg hp, Bool.not_eq_true] at *
          rw [alGet_alSet, if_pos rfl]
          unfold CosmosBlockchain.stakingAmount CosmosBlockchain.getStakingInfo
          rw [alGet_eq_none bc.stakingPool d (by simpa using hp)]
          simp [alGet]
      · show alGet (alSet bc.validators vAddr (v.increaseStake n)) vAddr =
          some (v.increaseStake n)
        rw [alGet_alSet, if_pos rfl]

theorem balOf_alSet_ne (m : SMap Int) (k x : String) (v : Int) (h : x ≠ k) :
    balOf (alSet m k v) x = balOf m x := by
  rw [balOf_alSet, if_neg h]

theorem balOf_le_alSet_credit (m : SMap Int) (k x : String) (c : Int) (hc : 0 ≤ c) :
    balOf m x ≤ balOf (alSet m k (balOf m k + c)) x := by
  rw [balOf_alSet]
  by_cases hx : x = k
  · rw [if_pos hx, hx]
    linarith
  · rw [if_neg hx]

theorem settle_none_mono (vAddr : String) (st : SMap Int × Int) {tx : Transaction}
    (ho : tx.fromAddress = none) (ham : 0 ≤ tx.amount) (x : String) :
    balOf st.1 x ≤ balOf (settleTransaction vAddr st tx).1 x := by
  unfold settleTransaction
  rw [ho]
  exact balOf_le_alSet_credit st.1 tx.toAddress x tx.amount ham

theorem settle_some_mono (vAddr : String) (st : SMap Int × Int) {tx : Transaction} {o : String}
    (ho : tx.fromAddress = some o) (ham : 0 ≤ tx.amount) (hfee : 0 ≤ tx.fee)
    (x : String) (hxo : x ≠ o) :
    balOf st.1 x ≤ balOf (settleTransaction vAddr st tx).1 x := by
  unfold settleTransaction
  rw [ho]
  dsimp only
  have e1 := balOf_alSet_ne st.1 o x (balOf st.1 o - tx.amount - tx.fee) hxo
  set b1 := alSet st.1 o (balOf st.1 o - tx.amount - tx.fee) with hb1
  have e2 := balOf_le_alSet_credit b1 tx.toAddress x tx.amount ham
  set b2 := alSet b1 tx.toAddress (balOf b1 tx.toAddress + tx.amount) with hb2
  have e3 := balOf_le_alSet_credit b2 vAddr x tx.fee hfee
  linarith

theorem settle_some_origin_lb (vAddr : String) (st : SMap Int × Int) {tx : Transaction}
    {o : String} (ho : tx.fromAddress = some o) (ham : 0 ≤ tx.amount) (hfee : 0 ≤ tx.fee) :
    balOf st.1 o - tx.amount - tx.fee ≤ balOf (settleTransaction vAddr st tx).1 o := by
  unfold settleTransaction
  rw [ho]
  dsimp only
  have e1 : balOf (alSet st.1 o (balOf st.1 o - tx.amount - tx.fee)) o =
      balOf st.1 o - tx.amount - tx.fee := by
    rw [balOf_alSet, if_pos rfl]
  set b1 := alSet st.1 o (balOf st.1 o - tx.amount - tx.fee) with hb1
  have e2 := balOf_le_alSet_credit b1 tx.toAddress o tx.amount ham
  set b2 := alSet b1 tx.toAddress (balOf b1 tx.toAddress + tx.amount) with hb2
  have e3 := balOf_le_alSet_credit b2 vAddr o tx.fee hfee
  linarith

theorem settleFold_nonneg (vAddr : String) (S : SMap Int) :
    ∀ (L : List Transaction) (st : SMap Int × Int) (done : List String),
      (∀ a, 0 ≤ balOf st.1 a) →
      (∀ a, a ∉ done → balOf S a ≤ balOf st.1 a) →
      (∀ tx ∈ L, 0 ≤ tx.amount ∧ 0 ≤ tx.fee ∧
        ∀ o, tx.fromAddress = some o → o ∉ done ∧ tx.amount + tx.fee ≤ balOf S o) →
      (L.filterMap Transaction.fromAddress).Nodup →
      ∀ a, 0 ≤ balOf (L.foldl (settleTransaction vAddr) st).1 a := by
  intro L
  induction L with
  | nil =>
    intro st done h1 h2 h3 h4 a
    exact h1 a
  | cons tx rest ih =>
    intro st done h1 h2 h3 h4 a
    rw [List.foldl_cons]
    obtain ⟨ham, hfee, hor⟩ := h3 tx (List.mem_cons_self tx rest)
    cases ho : tx.fromAddress with
    | none =>
      refine ih (settleTransaction vAddr st tx) done ?_ ?_ ?_ ?_ a
      · intro x
        exact le_trans (h1 x) (settle_none_mono vAddr st ho ham x)
      · intro x hx
        exact le_trans (h2 x hx) (settle_none_mono vAddr st ho ham x)
      · intro tx' htx'
        exact h3 tx' (List.mem_cons_of_mem tx htx')
      · rwa [List.filterMap_cons_none ho] at h4
    | some o =>
      obtain ⟨hod, hof⟩ := hor o ho
      rw [List.filterMap_cons_some ho] at h4
      have hnodup := List.nodup_cons.mp h4
      refine ih (settleTransaction vAddr st tx) (o :: done) ?_ ?_ ?_ ?_ a
      · intro x
        by_cases hxo : x = o
        · subst hxo
          have l1 := settle_some_origin_lb vAddr st ho ham hfee
          have l2 := h2 x hod
          linarith
        · exact le_trans (h1 x) (settle_some_mono vAddr st ho ham hfee x hxo)
      · intro x hx
        have hx' : x ≠ o ∧ x ∉ done := by
          constructor
          · intro hc; exact hx (hc ▸ List.mem_cons_self o done)
          · intro hc; exact hx (List.mem_cons_of_mem o hc)
        exact le_trans (h2 x hx'.2) (settle_some_mono vAddr st ho ham hfee x hx'.1)
      · intro tx' htx'
        obtain ⟨ham', hfee', hor'⟩ := h3 tx' (List.mem_cons_of_mem tx htx')
        refine ⟨ham', hfee', ?_⟩
        intro o' ho'
        obtain ⟨hod', hof'⟩ := hor' o' ho'
        refine ⟨?_, hof'⟩
        intro hc
        rcases List.mem_cons.mp hc with hc1 | hc2
        · subst hc1
          exact hnodup.1 (List.mem_filterMap.mpr ⟨tx', htx', ho'⟩)
        · exact hod' hc2
      · exact hnodup.2

theorem mineValidTxs_mem {bc : CosmosBlockchain} {v : Validator} {tsR : Int} {tx : Transaction}
    (h : tx ∈ mineValidTxs bc v tsR) :
    (tx ∈ bc.pendingTransactions ∨ tx = Transaction.make none v.address bc.miningReward 0 tsR) ∧
      bc.isTransactionValid tx = true := by
  unfold mineValidTxs at h
  have hm := List.mem_filter.mp h
  constructor
  · rcases List.mem_append.mp hm.1 with h1 | h2
    · exact Or.inl h1
    · exact Or.inr (by simpa using h2)
  · exact hm.2

theorem mineValidTxs_origins_nodup {bc : CosmosBlockchain} {v : Validator} {tsR : Int}
    (h : (bc.pendingTransactions.filterMap Transaction.fromAddress).Nodup) :
    ((mineValidTxs bc v tsR).filterMap Transaction.fromAddress).Nodup := by
  have hsub : List.Sublist (mineValidTxs bc v tsR)
      (bc.pendingTransactions ++ [Transaction.make none v.address bc.miningReward 0 tsR]) :=
    List.filter_sublist _
  have hsub2 := hsub.filterMap Transaction.fromAddress
  rw [List.filterMap_append] at hsub2
  have hr : List.filterMap Transaction.fromAddress
      [Transaction.make none v.address bc.miningReward 0 tsR] = [] := rfl
  rw [hr, List.append_nil] at hsub2
  exact h.sublist hsub2

theorem init_chain (ts : Int) : (CosmosBlockchain.init ts).chain = [createGenesisBlock ts] := rfl

theorem Block.make_index (i : Nat) (txs : List Transaction) (ph va : String) (ts : Int) :
    (Block.make i txs ph va ts).index = i := rfl

theorem Block.make_previousHash (i : Nat) (txs : List Transaction) (ph va : String) (ts : Int) :
    (Block.make i txs ph va ts).previousHash = ph := rfl

theorem Block.make_transactions (i : Nat) (txs : List Transaction) (ph va : String) (ts : Int) :
    (Block.make i txs ph va ts).transactions = txs := rfl

theorem Block.make_validator (i : Nat) (txs : List Transaction) (ph va : String) (ts : Int) :
    (Block.make i txs ph va ts).validator = va := rfl


/-- C8: `createTransaction` fails with the unauthorized-transaction error
exactly when the transaction's origin is set and its signature is unset;
otherwise it appends the transaction to the pending pool.  The statement
quantifies over every chain state `bc`, so no balance influences the
outcome: submission performs no balance check. -/
theorem submit_contract (bc : CosmosBlockchain) (tx : Transaction) :
    (bc.createTransaction tx = .error "无效的交易" ↔
      tx.fromAddress ≠ none ∧ tx.signature = none) ∧
    ((tx.fromAddress = none ∨ tx.signature ≠ none) →
      bc.createTransaction tx =
        .ok { bc with pendingTransactions := bc.pendingTransactions ++ [tx] }) := by
  constructor
  · constructor
    · intro h
      by_cases hv : tx.isValid
      · rw [createTransaction_ok_of_valid hv] at h
        cases h
      · have hv' : ¬ (tx.fromAddress = none ∨ tx.signature.isSome = true) := by
          rw [← isValid_iff]
          exact hv
        push_neg at hv'
        exact ⟨hv'.1, by simpa [Option.isSome_iff_ne_none] using hv'.2⟩
    · rintro ⟨h1, h2⟩
      have hv : tx.isValid = false := by
        rw [← Bool.not_eq_true, isValid_iff]
        push_neg
        exact ⟨h1, by simp [h2]⟩
      exact createTransaction_error_of_invalid hv
  · intro h
    apply createTransaction_ok_of_valid
    rw [isValid_iff]
    rcases h with h | h
    · exact Or.inl h
    · exact Or.inr (Option.isSome_iff_ne_none.mpr h)

/-- Witness for C8: on a fresh chain, a signed transaction is appended to the
pending pool and an unsigned non-reward transaction is rejected. -/
theorem submit_contract_witness :
    (CosmosBlockchain.init 0).createTransaction run2Tx1 =
      .ok { CosmosBlockchain.init 0 with
              pendingTransactions := (CosmosBlockchain.init 0).pendingTransactions ++ [run2Tx1] } ∧
    (CosmosBlockchain.init 0).createTransaction (Transaction.make (some "a") "b" 1 0 0) =
      .error "无效的交易" :=
  ⟨(submit_contract (CosmosBlockchain.init 0) run2Tx1).2 (Or.inr (by decide)),
   (submit_contract (CosmosBlockchain.init 0) (Transaction.make (some "a") "b" 1 0 0)).1.mpr
     (by decide)⟩

/-- C4: when no validator is both active and of positive stake,
`minePendingTransactions` fails with the no-active-validators error.  In this
embedding an `.error` result carries no successor state, mirroring the source,
which throws inside `selectValidator` before touching the pending pool, chain,
balances, total supply, staking pool, or any validator counter — so the whole
state is unchanged. -/
theorem mine_no_active_validators (bc : CosmosBlockchain) (random : ℚ)
    (tsReward tsBlock : Int) (h : bc.activeValidatorsOf = []) :
    bc.minePendingTransactions random tsReward tsBlock = .error "没有活跃的验证者" := by
  unfold CosmosBlockchain.minePendingTransactions
  rw [selectValidator_error_of_empty h]

/-- Witness for C4: a fresh chain with its validator map emptied cannot mine. -/
theorem mine_no_active_validators_witness :
    noValidatorChain.activeValidatorsOf = [] ∧
    noValidatorChain.minePendingTransactions 0 1 2 = .error "没有活跃的验证者" :=
  ⟨rfl, mine_no_active_validators noValidatorChain 0 1 2 rfl⟩

/-- C7: with exactly one validator active and of positive stake, every draw
in `[0, totalActiveStake)` selects that validator (the accumulation reaches
the draw at the single validator, so the fall-back is not even needed). -/
theorem select_single_validator (bc : CosmosBlockchain) (v : Validator) (random : ℚ)
    (_h0 : 0 ≤ random)
    (hv : bc.activeValidatorsOf = [v])
    (h1 : random < (bc.totalActiveStake : ℚ)) :
    bc.selectValidator random = .ok v := by
  have htot : bc.totalActiveStake = v.stake := by
    unfold CosmosBlockchain.totalActiveStake
    rw [hv]
    simp
  unfold CosmosBlockchain.selectValidator
  rw [dif_neg (by rw [hv]; exact List.cons_ne_nil v [])]
  have hloop : selectLoop random bc.activeValidatorsOf 0 = some v := by
    rw [hv]
    unfold selectLoop
    rw [if_pos ?_]
    rw [htot] at h1
    push_cast
    linarith
  rw [hloop]

/-- Witness for C7: a chain with a single active validator of stake 7 selects
it for the draw 3. -/
theorem select_single_validator_witness :
    singleValidatorChain.activeValidatorsOf = [Validator.make "validator1" 7] ∧
    (0:ℚ) ≤ 3 ∧ (3:ℚ) < (singleValidatorChain.totalActiveStake : ℚ) ∧
    singleValidatorChain.selectValidator 3 = .ok (Validator.make "validator1" 7) :=
  ⟨rfl, by decide, by decide,
   select_single_validator singleValidatorChain (Validator.make "validator1" 7) 3
     (by decide) rfl (by decide)⟩

/-- C3: `delegate` fails with the unknown-validator error when the target is
not in the validator map; with the validator known, it fails with the
insufficient-balance error when the delegator's balance is below the amount;
on success, the delegator's staking-pool entry for the validator grows by
exactly the amount (reading `0` when the entry was absent, so the entry is
created if needed), the validator's stake grows by exactly the amount, and
the delegator's balance shrinks by exactly the amount.  Failures are thrown
before any mutation, and in this embedding an `.error` result carries no
successor state, so nothing changes on failure. -/
theorem delegate_contract (bc : CosmosBlockchain) (d vAddr : String) (n : Int) :
    (alGet bc.validators vAddr = none → bc.delegate d vAddr n = .error "验证者不存在") ∧
    (∀ v, alGet bc.validators vAddr = some v → bc.getBalance d < n →
      bc.delegate d vAddr n = .error "余额不足") ∧
    (∀ v, alGet bc.validators vAddr = some v → ¬ bc.getBalance d < n →
      ∃ bc', bc.delegate d vAddr n = .ok bc' ∧
        bc'.stakingAmount d vAddr = bc.stakingAmount d vAddr + n ∧
        alGet bc'.validators vAddr = some (v.increaseStake n) ∧
        (v.increaseStake n).stake = v.stake + n ∧
        bc'.getBalance d = bc.getBalance d - n) := by
  refine ⟨fun h => delegate_error_of_unknown h,
    fun v hv hb => delegate_error_of_poor hv hb, ?_⟩
  intro v hv hb
  obtain ⟨bc', hok⟩ := delegate_ok_exists hv hb
  obtain ⟨v', hv', _, hbal, _, hstak, hval, _, _, _, _⟩ := delegate_effects hok
  have hvv : v' = v := by
    rw [hv] at hv'
    exact (Option.some.inj hv').symm
  subst hvv
  exact ⟨bc', hok, hstak, hval, rfl, hbal⟩

/-- Witness for C3: concrete delegation of 100 from validator2 to validator1
on a fresh chain, plus the two failure modes. -/
theorem delegate_contract_witness :
    (CosmosBlockchain.init 0).delegate "d" "nobody" 5 = .error "验证者不存在" ∧
    (CosmosBlockchain.init 0).delegate "d" "validator1" 5 = .error "余额不足" ∧
    (CosmosBlockchain.init 0).delegate "validator2" "validator1" 100 = .ok delegateRunBc ∧
    delegateRunBc.stakingAmount "validator2" "validator1" =
      (CosmosBlockchain.init 0).stakingAmount "validator2" "validator1" + 100 ∧
    alGet delegateRunBc.validators "validator1" =
      some ((Validator.make "validator1" 1000000).increaseStake 100) ∧
    delegateRunBc.getBalance "validator2" =
      (CosmosBlockchain.init 0).getBalance "validator2" - 100 := by
  refine ⟨(delegate_contract (CosmosBlockchain.init 0) "d" "nobody" 5).1 rfl,
    (delegate_contract (CosmosBlockchain.init 0) "d" "validator1" 5).2.1
      (Validator.make "validator1" 1000000) rfl (by decide), ?_⟩
  obtain ⟨bc', hok, h1, h2, _, h4⟩ :=
    (delegate_contract (CosmosBlockchain.init 0) "validator2" "validator1" 100).2.2
      (Validator.make "validator1" 1000000) rfl (by decide)
  have he : bc' = delegateRunBc := by
    have hrun : (CosmosBlockchain.init 0).delegate "validator2" "validator1" 100 =
        .ok delegateRunBc := rfl
    exact (Except.ok.inj (hrun ▸ hok)).symm
  subst he
  exact ⟨hok, h1, h2, h4⟩

/-- C9: for a negative amount and a known validator, `delegate` succeeds
whenever the delegator's balance is non-negative (the affordability check
`balance < amount` cannot fire), and the update formulas run in reverse: the
balance ends at `balance - n` (an increase by `-n`), the staking-pool entry
at `entry + n` (a decrease by `-n`, possibly below zero), and the validator's
stake at `stake + n` (a decrease by `-n`). -/
theorem delegate_negative_amount (bc : CosmosBlockchain) (d vAddr : String) (n : Int)
    (v : Validator) (hv : alGet bc.validators vAddr = some v)
    (hn : n < 0) (hb : 0 ≤ bc.getBalance d) :
    ∃ bc', bc.delegate d vAddr n = .ok bc' ∧
      bc'.getBalance d = bc.getBalance d - n ∧
      bc.getBalance d < bc'.getBalance d ∧
      bc'.stakingAmount d vAddr = bc.stakingAmount d vAddr + n ∧
      alGet bc'.validators vAddr = some (v.increaseStake n) ∧
      (v.increaseStake n).stake = v.stake + n := by
  have hb' : ¬ bc.getBalance d < n := by linarith
  obtain ⟨bc', hok⟩ := delegate_ok_exists hv hb'
  obtain ⟨v', hv', _, hbal, _, hstak, hval, _, _, _, _⟩ := delegate_effects hok
  have hvv : v' = v := by
    rw [hv] at hv'
    exact (Option.some.inj hv').symm
  subst hvv
  exact ⟨bc', hok, hbal, by rw [hbal]; linarith, hstak, hval, rfl⟩

/-- Witness for C9: delegating -50 from validator2 to validator1 succeeds and
runs in reverse, leaving the staking entry negative. -/
theorem delegate_negative_amount_witness :
    (CosmosBlockchain.init 0).delegate "validator2" "validator1" (-50) = .ok delegateNegRunBc ∧
    delegateNegRunBc.getBalance "validator2" = 800050 ∧
    delegateNegRunBc.stakingAmount "validator2" "validator1" = -50 ∧
    alGet delegateNegRunBc.validators "validator1" =
      some ((Validator.make "validator1" 1000000).increaseStake (-50)) := by
  obtain ⟨bc', hok, h1, _, h3, h4, _⟩ :=
    delegate_negative_amount (CosmosBlockchain.init 0) "validator2" "validator1" (-50)
      (Validator.make "validator1" 1000000) rfl (by decide) (by decide)
  have he : bc' = delegateNegRunBc := by
    have hrun : (CosmosBlockchain.init 0).delegate "validator2" "validator1" (-50) =
        .ok delegateNegRunBc := rfl
    exact (Except.ok.inj (hrun ▸ hok)).symm
  subst he
  refine ⟨hok, ?_, ?_, h4⟩
  · rw [h1]; rfl
  · rw [h3]; rfl

/-- C10: a signed pending transaction whose origin is the empty string passes
the affordability filter `isTransactionValid` on every chain state (the
source tests JS falsiness of `fromAddress`, and the empty string is falsy),
yet the settlement step of `minePendingTransactions` tests
`fromAddress !== null` and therefore debits the address `""` by
`amount + fee`, credits the destination with `amount` and the producer with
`fee`, and leaves `totalSupply` unchanged (stated here for a destination and
producer distinct from `""` and from each other, so that the three deltas are
separate). -/
theorem empty_string_origin (bc : CosmosBlockchain) (tx : Transaction)
    (vAddr : String) (st : SMap Int × Int)
    (ho : tx.fromAddress = some "")
    (h1 : tx.toAddress ≠ "") (h2 : vAddr ≠ "") (h3 : vAddr ≠ tx.toAddress) :
    bc.isTransactionValid tx = true ∧
    balOf (settleTransaction vAddr st tx).1 "" = balOf st.1 "" - tx.amount - tx.fee ∧
    balOf (settleTransaction vAddr st tx).1 tx.toAddress = balOf st.1 tx.toAddress + tx.amount ∧
    balOf (settleTransaction vAddr st tx).1 vAddr = balOf st.1 vAddr + tx.fee ∧
    (settleTransaction vAddr st tx).2 = st.2 := by
  refine ⟨?_, settleTransaction_some_spec vAddr st ho h1 h2 h3⟩
  unfold CosmosBlockchain.isTransactionValid
  rw [ho]
  dsimp only
  rw [if_pos rfl]

/-- Witness for C10: a signed empty-origin transaction of amount 5 and fee 1
passes the filter on a fresh chain regardless of the zero balance of `""` and
is settled by debiting `""` to -6. -/
theorem empty_string_origin_witness :
    (CosmosBlockchain.init 0).isTransactionValid
      ((Transaction.make (some "") "b" 5 1 0).signTransaction "k") = true ∧
    balOf (settleTransaction "v" ((CosmosBlockchain.init 0).balances, 2400000)
      ((Transaction.make (some "") "b" 5 1 0).signTransaction "k")).1 "" = 0 - 5 - 1 ∧
    (settleTransaction "v" ((CosmosBlockchain.init 0).balances, 2400000)
      ((Transaction.make (some "") "b" 5 1 0).signTransaction "k")).2 = 2400000 := by
  obtain ⟨hf, hdeb, _, _, hts⟩ :=
    empty_string_origin (CosmosBlockchain.init 0)
      ((Transaction.make (some "") "b" 5 1 0).signTransaction "k") "v"
      ((CosmosBlockchain.init 0).balances, 2400000) (by decide) (by decide) (by decide)
      (by decide)
  exact ⟨hf, by rw [hdeb]; rfl, hts⟩

/-- C1 counterexample: the claim's per-transaction balance deltas fail when
origin, destination and producer coincide.  On a fresh chain, the signed
self-transfer `run1Tx` (origin = destination = "validator1", amount 50,
fee 1) is submitted and settled first by `minePendingTransactions` with draw
0, which also selects "validator1" as producer; relative to the balances
immediately before that settlement step (1000000), settling it leaves
"validator1" at exactly 1000000, not at 1000000 - 51 as the claim requires. -/
theorem settle_self_transfer_counterexample :
    run1Tx.fromAddress = some "validator1" ∧
    run1Tx.amount + run1Tx.fee = 51 ∧
    (CosmosBlockchain.init 0).createTransaction run1Tx = .ok run1Bc1 ∧
    run1Bc1.minePendingTransactions 0 6 7 = .ok (run1Blk, run1Bc2) ∧
    run1Blk.validator = "validator1" ∧
    run1Blk.transactions.getD 0 defaultTransaction = run1Tx ∧
    balOf run1Bc1.balances "validator1" = 1000000 ∧
    balOf (settleTransaction "validator1" (run1Bc1.balances, run1Bc1.totalSupply) run1Tx).1
      "validator1" = 1000000 ∧
    balOf (settleTransaction "validator1" (run1Bc1.balances, run1Bc1.totalSupply) run1Tx).1
      "validator1" ≠
      balOf run1Bc1.balances "validator1" - (run1Tx.amount + run1Tx.fee) := by
  refine ⟨rfl, by decide, rfl, rfl, rfl, by decide, by decide, by decide, by decide⟩

/-- C1 (amended): for every non-reward transaction settled by the settlement
step of `minePendingTransactions` whose origin, destination, and producing
validator are pairwise distinct, relative to the balances immediately before
that settlement step the origin decreases by exactly `amount + fee`, the
destination increases by exactly `amount`, and the producer increases by
exactly `fee`. -/
theorem settle_nonreward_deltas (vAddr : String) (st : SMap Int × Int) (tx : Transaction)
    (o : String) (ho : tx.fromAddress = some o)
    (hd1 : o ≠ tx.toAddress) (hd2 : o ≠ vAddr) (hd3 : tx.toAddress ≠ vAddr) :
    balOf (settleTransaction vAddr st tx).1 o = balOf st.1 o - tx.amount - tx.fee ∧
    balOf (settleTransaction vAddr st tx).1 tx.toAddress = balOf st.1 tx.toAddress + tx.amount ∧
    balOf (settleTransaction vAddr st tx).1 vAddr = balOf st.1 vAddr + tx.fee := by
  have h := settleTransaction_some_spec vAddr st ho (Ne.symm hd1) (Ne.symm hd2) (Ne.symm hd3)
  exact ⟨h.1, h.2.1, h.2.2.1⟩

/-- Witness for C1 (amended): settling a transfer of 30 with fee 2 from "a"
to "b" under producer "v" moves the three balances by -32, +30, +2. -/
theorem settle_nonreward_deltas_witness :
    balOf (settleTransaction "v" ([("a", 100)], 0) (Transaction.make (some "a") "b" 30 2 0)).1
      "a" = 100 - 30 - 2 ∧
    balOf (settleTransaction "v" ([("a", 100)], 0) (Transaction.make (some "a") "b" 30 2 0)).1
      "b" = 0 + 30 ∧
    balOf (settleTransaction "v" ([("a", 100)], 0) (Transaction.make (some "a") "b" 30 2 0)).1
      "v" = 0 + 2 := by
  obtain ⟨h1, h2, h3⟩ :=
    settle_nonreward_deltas "v" ([("a", 100)], 0) (Transaction.make (some "a") "b" 30 2 0)
      "a" rfl (by decide) (by decide) (by decide)
  exact ⟨h1, h2, h3⟩

/-- C6: with an empty pending pool, a non-negative mining reward, and at
least one active validator of positive stake, `minePendingTransactions`
succeeds; the produced block contains exactly the synthesized reward
transaction (origin null, destination the selected validator, amount the
mining reward, fee 0), settling it adds the mining reward to the total supply
and to the selected validator's balance, decreases no balance, and leaves the
pending pool empty. -/
theorem mine_empty_pool (bc : CosmosBlockchain) (random : ℚ) (tsReward tsBlock : Int)
    (hp : bc.pendingTransactions = [])
    (ha : bc.activeValidatorsOf ≠ [])
    (hr : 0 ≤ bc.miningReward) :
    (∃ p, bc.minePendingTransactions random tsReward tsBlock = .ok p) ∧
    (∀ v blk bc', bc.selectValidator random = .ok v →
      bc.minePendingTransactions random tsReward tsBlock = .ok (blk, bc') →
      blk.transactions = [Transaction.make none v.address bc.miningReward 0 tsReward] ∧
      bc'.totalSupply = bc.totalSupply + bc.miningReward ∧
      bc'.getBalance v.address = bc.getBalance v.address + bc.miningReward ∧
      (∀ a, bc.getBalance a ≤ bc'.getBalance a) ∧
      bc'.pendingTransactions = []) := by
  constructor
  · obtain ⟨v, hs, _⟩ := @selectValidator_ok_of_ne_nil bc random ha
    exact ⟨_, mine_ok_of_select hs⟩
  · intro v blk bc' hs hm
    have hpair : (blk, bc') = bc.mineWith v tsReward tsBlock :=
      Except.ok.inj ((mine_ok_of_select hs).symm.trans hm).symm
    have hblk : blk = (bc.mineWith v tsReward tsBlock).1 := congrArg Prod.fst hpair
    have hbc' : bc' = (bc.mineWith v tsReward tsBlock).2 := congrArg Prod.snd hpair
    have hvalid : mineValidTxs bc v tsReward =
        [Transaction.make none v.address bc.miningReward 0 tsReward] := by
      unfold mineValidTxs
      rw [hp, List.nil_append]
      have hval : bc.isTransactionValid
          (Transaction.make none v.address bc.miningReward 0 tsReward) = true :=
        isTransactionValid_of_none rfl
      simp [List.filter, hval]
    have hset : mineSettled bc v tsReward =
        (alSet bc.balances v.address
          (balOf bc.balances v.address + bc.miningReward),
         bc.totalSupply + bc.miningReward) := by
      unfold mineSettled
      rw [hvalid]
      rfl
    refine ⟨?_, ?_, ?_, ?_, ?_⟩
    · rw [hblk, mineWith_fst, Block.make_transactions, hvalid]
    · rw [hbc', mineWith_totalSupply, hset]
    · show balOf bc'.balances v.address = balOf bc.balances v.address + bc.miningReward
      rw [hbc', mineWith_balances, hset]
      exact (balOf_alSet _ _ _ _).trans (if_pos rfl)
    · intro a
      show balOf bc.balances a ≤ balOf bc'.balances a
      rw [hbc', mineWith_balances, hset]
      by_cases hav : a = v.address
      · rw [balOf_alSet, if_pos hav, hav]
        linarith
      · rw [balOf_alSet, if_neg hav]
    · rw [hbc']
      exact mineWith_pending bc v tsReward tsBlock

/-- Witness for C6: mining a fresh chain (empty pool) with draw 0 produces a
block holding exactly the reward transaction for validator1 and credits it
with the reward. -/
theorem mine_empty_pool_witness :
    run3Mine = .ok (run3Blk, run3Bc) ∧
    run3Blk.transactions = [Transaction.make none "validator1" 100 0 0] ∧
    run3Bc.totalSupply = 2400100 ∧
    run3Bc.getBalance "validator1" = 1000100 ∧
    run3Bc.pendingTransactions = [] := by
  have happ := (mine_empty_pool (CosmosBlockchain.init 0) 0 0 0 rfl
    (by decide) (by decide)).2 (Validator.make "validator1" 1000000) run3Blk run3Bc
    rfl rfl
  exact ⟨rfl, happ.1, happ.2.1, happ.2.2.1, happ.2.2.2.2⟩


theorem chainLinked_of_chain_eq {bc bc' : CosmosBlockchain} (h : bc'.chain = bc.chain)
    (hc : chainLinked bc) : chainLinked bc' := by
  unfold chainLinked at *
  rw [h]
  exact hc

/-- C5: in every reachable state, each block beyond the genesis block stores
the hash of its predecessor as `previousHash`, each block's `index` equals
its position in the chain, and the block at position 0 is the genesis block:
`previousHash` "0", no transactions, producer "genesis". -/
theorem chain_linked_invariant (bc : CosmosBlockchain) (h : Reachable bc) :
    chainLinked bc := by
  induction h with
  | genesis ts =>
    refine ⟨?_, ?_, rfl, rfl, rfl, by rw [init_chain]; exact List.cons_ne_nil _ _⟩
    · intro i hi h0
      rw [init_chain] at hi
      simp at hi
      omega
    · intro i hi
      rw [init_chain] at hi
      simp at hi
      have hi0 : i = 0 := by omega
      subst hi0
      rfl
  | @step bc1 bc2 hr hst ih =>
    cases hst with
    | submit tx hok =>
      have he := createTransaction_ok_inv hok
      subst he
      exact chainLinked_of_chain_eq rfl ih
    | stake d vA n hok =>
      obtain ⟨_, _, _, _, _, _, _, hchain, _, _, _⟩ := delegate_effects hok
      exact chainLinked_of_chain_eq hchain ih
    | mine random tsR tsB blk hok =>
      obtain ⟨v, _, hp⟩ := mine_ok_inv hok
      have hbc' : bc2 = (bc1.mineWith v tsR tsB).2 := congrArg Prod.snd hp
      subst hbc'
      obtain ⟨hlink, hidx, hph, htx, hva, hne⟩ := ih
      have hlpos := List.length_pos.mpr hne
      have hBph : (bc1.mineWith v tsR tsB).1.previousHash = bc1.getLatestBlock.hash := by
        rw [mineWith_fst]
        rfl
      have hBidx : (bc1.mineWith v tsR tsB).1.index = bc1.chain.length := by
        rw [mineWith_fst]
        rfl
      have hlat : bc1.getLatestBlock.hash =
          (bc1.chain.getD (bc1.chain.length - 1) defaultBlock).hash := by
        unfold CosmosBlockchain.getLatestBlock
        rw [getLastD_eq_getD bc1.chain defaultBlock hne]
      unfold chainLinked
      rw [mineWith_chain]
      have hlen : (bc1.chain ++ [(bc1.mineWith v tsR tsB).1]).length = bc1.chain.length + 1 := by
        simp
      refine ⟨?_, ?_, ?_, ?_, ?_, by simp⟩
      · intro i hi h0
        rw [hlen] at hi
        by_cases hl : i < bc1.chain.length
        · rw [getD_append_left _ _ _ _ hl, getD_append_left _ _ _ _ (by omega)]
          exact hlink i hl h0
        · have hieq : i = bc1.chain.length := by omega
          subst hieq
          rw [getD_append_length, getD_append_left _ _ _ _ (by omega), hBph, hlat]
      · intro i hi
        rw [hlen] at hi
        by_cases hl : i < bc1.chain.length
        · rw [getD_append_left _ _ _ _ hl]
          exact hidx i hl
        · have hieq : i = bc1.chain.length := by omega
          subst hieq
          rw [getD_append_length]
          exact hBidx
      · rw [getD_append_left _ _ _ _ hlpos]
        exact hph
      · rw [getD_append_left _ _ _ _ hlpos]
        exact htx
      · rw [getD_append_left _ _ _ _ hlpos]
        exact hva

theorem reachable_run2Bc3 : Reachable run2Bc3 :=
  Reachable.step (Reachable.step (Reachable.step (Reachable.genesis 0)
    (Step.submit run2Tx1 rfl)) (Step.submit run2Tx2 rfl)) (Step.mine 0 3 4 run2Blk rfl)

/-- Witness for C5: the chain-linkage invariant holds at the reachable state
reached by two submissions and one block production. -/
theorem chain_linked_invariant_witness : chainLinked run2Bc3 :=
  chain_linked_invariant run2Bc3 reachable_run2Bc3

/-- C2 counterexample: non-negativity of balances fails on reachable states.
Two signed transactions of 600000 each from "validator1" (balance 1000000)
are both accepted by the batch filter, which checks affordability against the
one-time balance snapshot; settling both (plus the reward of 100, with
validator1 as producer under draw 0) leaves `balanceOf("validator1")` at
-199900. -/
theorem double_spend_counterexample :
    Reachable run2Bc3 ∧
    run2Bc3.getBalance "validator1" = -199900 ∧
    run2Bc3.getBalance "validator1" < 0 :=
  ⟨reachable_run2Bc3, by decide, by decide⟩

/-- C2 (amended): balances stay non-negative under every successful
`createTransaction` and `delegate`; `minePendingTransactions` preserves
non-negativity of all balances provided the mining reward is non-negative,
every pending transaction has non-negative amount and fee and an origin that
is not the empty string, and no two pending transactions share an origin
address.  The last condition is exactly what the double-spend counterexample
violates: the batch filter checks each transaction against a one-time
balance snapshot, so repeated origins within one block can overdraw. -/
theorem nonneg_preservation_amended :
    (∀ (bc bc' : CosmosBlockchain) (tx : Transaction),
      bc.createTransaction tx = .ok bc' →
      (∀ a, 0 ≤ bc.getBalance a) → ∀ a, 0 ≤ bc'.getBalance a) ∧
    (∀ (bc bc' : CosmosBlockchain) (d vA : String) (n : Int),
      bc.delegate d vA n = .ok bc' →
      (∀ a, 0 ≤ bc.getBalance a) → ∀ a, 0 ≤ bc'.getBalance a) ∧
    (∀ (bc bc' : CosmosBlockchain) (random : ℚ) (tsR tsB : Int) (blk : Block),
      bc.minePendingTransactions random tsR tsB = .ok (blk, bc') →
      (∀ a, 0 ≤ bc.getBalance a) →
      0 ≤ bc.miningReward →
      (∀ tx ∈ bc.pendingTransactions,
        0 ≤ tx.amount ∧ 0 ≤ tx.fee ∧ tx.fromAddress ≠ some "") →
      (bc.pendingTransactions.filterMap Transaction.fromAddress).Nodup →
      ∀ a, 0 ≤ bc'.getBalance a) := by
  refine ⟨?_, ?_, ?_⟩
  · intro bc bc' tx hok hnn a
    have he := createTransaction_ok_inv hok
    subst he
    exact hnn a
  · intro bc bc' d vA n hok hnn a
    obtain ⟨v, _, hb, hbal, hother, _, _, _, _, _, _⟩ := delegate_effects hok
    by_cases had : a = d
    · subst had
      rw [hbal]
      have h1 := hnn a
      have h2 := not_lt.mp hb
      linarith
    · rw [hother a had]
      exact hnn a
  · intro bc bc' random tsR tsB blk hok hnn hmr htx hnodup a
    obtain ⟨v, hs, hp⟩ := mine_ok_inv hok
    have hbc' : bc' = (bc.mineWith v tsR tsB).2 := congrArg Prod.snd hp
    subst hbc'
    show 0 ≤ balOf (bc.mineWith v tsR tsB).2.balances a
    rw [mineWith_balances]
    unfold mineSettled
    apply settleFold_nonneg v.address bc.balances (mineValidTxs bc v tsR)
      (bc.balances, bc.totalSupply) [] hnn (fun x _ => le_refl _) ?_ ?_
    · intro tx htxm
      obtain ⟨hmem, hvalid⟩ := mineValidTxs_mem htxm
      rcases hmem with hpend | hrew
      · obtain ⟨hA, hF, hNE⟩ := htx tx hpend
        refine ⟨hA, hF, ?_⟩
        intro o hoo
        refine ⟨List.not_mem_nil o, ?_⟩
        have hone : o ≠ "" := by
          intro hc
          subst hc
          exact hNE hoo
        exact isTransactionValid_affords hoo hone hvalid
      · subst hrew
        refine ⟨hmr, le_refl 0, ?_⟩
        intro o hoo
        exact Option.noConfusion hoo
    · exact mineValidTxs_origins_nodup hnodup

/-- Witness for C2 (amended): delegating 100 and mining a single well-formed
transfer of 600000 from a fresh chain keep the touched balances
non-negative. -/
theorem nonneg_preservation_amended_witness :
    (CosmosBlockchain.init 0).delegate "validator1" "validator2" 100 = .ok delegateWitBc ∧
    0 ≤ delegateWitBc.getBalance "validator1" ∧
    run4Mine = .ok (run4Blk, run4Bc) ∧
    0 ≤ run4Bc.getBalance "validator1" ∧
    0 ≤ run4Bc.getBalance "bob" := by
  refine ⟨rfl, ?_, rfl, ?_, ?_⟩
  · exact nonneg_preservation_amended.2.1 (CosmosBlockchain.init 0) delegateWitBc
      "validator1" "validator2" 100 rfl
      (fun a => balOf_nonneg_of_entries (by decide) a) "validator1"
  · exact nonneg_preservation_amended.2.2 run2Bc1 run4Bc 0 3 4 run4Blk rfl
      (fun a => balOf_nonneg_of_entries (by decide) a) (by decide) (by decide)
      (by decide) "validator1"
  · exact nonneg_preservation_amended.2.2 run2Bc1 run4Bc 0 3 4 run4Blk rfl
      (fun a => balOf_nonneg_of_entries (by decide) a) (by decide) (by decide)
      (by decide) "bob"
